import Mathlib

/-!
Verification development for the mlcupscale image-upscaling service.

The definitions below are a shallow embedding of the Go sources:

* `internal/upscaler/upscaler.go` — job records, the service registry
  (`SubmitJob`, `GetJob`, `CancelJob`), the worker body `processJob`
  (embedded as the labelled transition system `step` over states `S`,
  where file-system and subprocess outcomes are supplied by explicit
  environment values), `Upscale` with its `validate` precondition checks.
* `internal/storage/storage.go` — `SaveUpload` with `sanitizeFilename`,
  and the cleanup sweeper `CleanupOldFiles` / `cleanupDir`.

Go strings are modelled as `List Char`; machine integers as `Int`/`Nat`
(no overflow is relevant to any claim: values are sizes, scales and
percentages).  Effectful calls (`os.Stat`, `os.Rename`, subprocess
execution, ...) are resolved by environment records carried by the
events, so every definition is executable.
-/

namespace MLCUpscale

/-! ## Decimal rendering (Go `fmt.Sprintf("%d", n)` for non-negative values) -/

/-- Character for a single decimal digit (callers pass a value below ten). -/
def decChar (d : Nat) : Char :=
  match d with
  | 0 => '0'
  | 1 => '1'
  | 2 => '2'
  | 3 => '3'
  | 4 => '4'
  | 5 => '5'
  | 6 => '6'
  | 7 => '7'
  | 8 => '8'
  | _ => '9'

/-- Decimal digits of a natural number, most significant first; mirrors
Go `fmt.Sprintf("%d", n)` for non-negative input. -/
def decChars (n : Nat) : List Char :=
  if n < 10 then [decChar n]
  else decChars (n / 10) ++ [decChar (n % 10)]
termination_by n
decreasing_by
  exact Nat.div_lt_self (by omega) (by omega)

/-- Decimal value of a digit string; inverse of `decChars`, used to prove
injectivity of job identifiers. -/
def decVal (l : List Char) : Nat :=
  l.foldl (fun a c => a * 10 + (c.toNat - 48)) 0

/-! ## Path model (Go `path/filepath` on a Unix target, over `List Char`) -/

/-- Drop trailing `'/'` separators; first phase of Go `filepath.Base`. -/
def dropTrailingSeps (p : List Char) : List Char :=
  (p.reverse.dropWhile (fun c => c == '/')).reverse

/-- Suffix after the last `'/'`; second phase of Go `filepath.Base`. -/
def afterLastSep (p : List Char) : List Char :=
  (p.reverse.takeWhile (fun c => c != '/')).reverse

/-- Go `filepath.Base` (Unix rules): empty input gives `"."`, an
all-separator input gives `"/"`, otherwise the last path element. -/
def goBase (p : List Char) : List Char :=
  if p = [] then ['.']
  else if afterLastSep (dropTrailingSeps p) = [] then ['/']
  else afterLastSep (dropTrailingSeps p)

/-- Split a path on `'/'`; separators are not kept.  `splitSep []` is
`[[]]`, matching the usual split-on-separator convention. -/
def splitSep : List Char → List (List Char)
  | [] => [[]]
  | c :: cs =>
    if c = '/' then [] :: splitSep cs
    else
      match splitSep cs with
      | [] => [[c]]
      | g :: gs => (c :: g) :: gs

/-- Rejoin components with `'/'`; left inverse of `splitSep`. -/
def joinComps : List (List Char) → List Char
  | [] => []
  | [g] => g
  | g :: g2 :: gs => g ++ '/' :: joinComps (g2 :: gs)

/-- A path component that is kept verbatim by Go `filepath.Clean`:
non-empty and neither `"."` nor `".."`. -/
def isPlainComp (c : List Char) : Bool :=
  !c.isEmpty && c != ['.'] && c != ['.', '.']

/-- Component processing of Go `filepath.Clean`: `""` and `"."` are
dropped, `".."` pops the output stack (kept at the root of a relative
path, dropped at the root of an absolute one). -/
def resolveComps (rooted : Bool) : List (List Char) → List (List Char) → List (List Char)
  | acc, [] => acc.reverse
  | acc, c :: cs =>
    if c = [] then resolveComps rooted acc cs
    else if c = ['.'] then resolveComps rooted acc cs
    else if c = ['.', '.'] then
      match acc with
      | [] =>
        if rooted then resolveComps rooted [] cs
        else resolveComps rooted [['.', '.']] cs
      | top :: rest =>
        if top = ['.', '.'] then resolveComps rooted (c :: acc) cs
        else resolveComps rooted rest cs
    else resolveComps rooted (c :: acc) cs

/-- Whether a path is absolute (starts with the separator). -/
def isRooted : List Char → Bool
  | '/' :: _ => true
  | _ => false

/-- Go `filepath.Clean` (Unix rules) via component resolution. -/
def goClean (p : List Char) : List Char :=
  if p = [] then ['.']
  else if isRooted p then '/' :: joinComps (resolveComps true [] (splitSep p))
  else if resolveComps false [] (splitSep p) = [] then ['.']
  else joinComps (resolveComps false [] (splitSep p))

/-- Go `filepath.Join` of two elements: empty elements are skipped and
the result is cleaned. -/
def goJoin (dir elem : List Char) : List Char :=
  if dir = [] then
    if elem = [] then [] else goClean elem
  else if elem = [] then goClean dir
  else goClean (dir ++ '/' :: elem)

/-- Go `filepath.Base` lifted to `String`. -/
def baseStr (s : String) : String :=
  String.mk (goBase s.data)

/-- Go `filepath.Join` lifted to `String`. -/
def goJoinStr (a b : String) : String :=
  String.mk (goJoin a.data b.data)

/-! ## storage.go -/

/-- Go `sanitizeFilename`: keep only the base name of the caller-supplied
filename (`filepath.Base` removes path traversal attempts). -/
def sanitizeFilename (filename : List Char) : List Char :=
  goBase filename

/-- Filename component built by `SaveUpload`:
`fmt.Sprintf("%d_%s", time.Now().UnixNano(), sanitizeFilename(filename))`. -/
def uploadName (t : Nat) (filename : List Char) : List Char :=
  decChars t ++ '_' :: sanitizeFilename filename

/-- Go `Manager.SaveUpload`: reject oversized data, otherwise the saved
path is `filepath.Join(uploadDir, "<unixnano>_<base name>")`.  `t` is the
`time.Now().UnixNano()` value, `dataLen` the byte length of the upload. -/
def SaveUpload (uploadDir : List Char) (maxFileSizeMB : Nat) (t : Nat)
    (filename : List Char) (dataLen : Nat) : Except (List Char) (List Char) :=
  if dataLen / (1024 * 1024) > maxFileSizeMB then Except.error ("file too large".data)
  else Except.ok (goJoin uploadDir (uploadName t filename))

/-- Directory entry as seen by the cleanup sweeper: `info` is the
modification time when `entry.Info()` succeeds (`none` when it fails),
and `removeOk` tells whether `os.Remove` on this entry would succeed. -/
structure DirEntry where
  name : String
  info : Option Int
  removeOk : Bool
deriving DecidableEq

/-- Go `Manager.cleanupDir`: walk the entries, skip those whose info is
unreadable, and call `os.Remove` on every entry strictly older than the
cutoff; a failed removal is logged and skipped.  The result lists the
attempted removals as `(name, succeeded)` pairs in directory order. -/
def cleanupDir (cutoff : Int) : List DirEntry → List (String × Bool)
  | [] => []
  | e :: rest =>
    match e.info with
    | none => cleanupDir cutoff rest
    | some t =>
      if t < cutoff then (e.name, e.removeOk) :: cleanupDir cutoff rest
      else cleanupDir cutoff rest

/-- Go `Manager.CleanupOldFiles`: one sweep over the upload and output
directories with cutoff `now - CleanupTTL`. -/
def CleanupOldFiles (now ttl : Int) (uploadEntries outputEntries : List DirEntry) :
    List (String × Bool) × List (String × Bool) :=
  (cleanupDir (now - ttl) uploadEntries, cleanupDir (now - ttl) outputEntries)

/-! ## upscaler.go data model -/

/-- Go `upscaler.Config`. -/
structure Config where
  binaryPath : String
  modelsPath : String
  defaultModel : String
  defaultScale : Int
  threads : String
  enableGPU : Bool
  gpuID : Int
deriving DecidableEq

/-- Go `upscaler.Request`. -/
structure Request where
  inputPath : String
  outputPath : String
  scale : Int
  modelName : String
  tileSize : Int
  format : String
deriving DecidableEq

/-- Go `upscaler.ImageSize`. -/
structure ImageSize where
  width : Int
  height : Int
deriving DecidableEq

/-- Go `upscaler.Result` (the wall-clock `Duration` field is not modelled:
no claim mentions it). -/
structure Result where
  outputPath : String
  inputSize : ImageSize
  outputSize : ImageSize
  fileSizeBytes : Int
deriving DecidableEq

/-- Job status: Go uses the strings "queued", "processing", "completed",
"failed", "cancelled". -/
inductive Status
  | queued
  | processing
  | completed
  | failed
  | cancelled
deriving DecidableEq

/-- Go `upscaler.Job` (the `ID` field is the registry key and `StartTime`
is not modelled; `cancelFunc` records presence of the cancellation
handle, a non-nil `context.CancelFunc`). -/
structure Job where
  request : Request
  status : Status
  progress : Int
  result : Option Result
  error : Option String
  cancelFunc : Bool
deriving DecidableEq

/-- Job record created by `SubmitJob`: status "queued", progress 0. -/
def initJob (req : Request) : Job :=
  { request := req, status := Status.queued, progress := 0,
    result := none, error := none, cancelFunc := false }

/-- Go `generateJobID`: the decimal rendering of `time.Now().UnixNano()`. -/
def generateJobID (t : Nat) : String :=
  String.mk (decChars t)

/-! ## Registry (the `jobs` map guarded by `jobsMu`) -/

/-- Lookup in the job map `s.jobs[id]`. -/
def lookupJob : List (String × Job) → String → Option Job
  | [], _ => none
  | (k, v) :: rest, id => if k = id then some v else lookupJob rest id

/-- Map assignment `s.jobs[id] = job` (overwrites an existing key). -/
def mapSet : List (String × Job) → String → Job → List (String × Job)
  | [], id, j => [(id, j)]
  | (k, v) :: rest, id, j =>
    if k = id then (id, j) :: rest else (k, v) :: mapSet rest id j

/-- Go `upscaler.Service` state: the job map, the bounded dispatch
channel, and the identifiers whose enqueue goroutine was launched but has
not yet delivered into the channel. -/
structure Service where
  jobs : List (String × Job)
  jobQueue : List String
  pendingEnqueues : List String
deriving DecidableEq

/-- Go `Service.SubmitJob` at nanosecond timestamp `t`: create the record
with status "queued" and progress 0, store it, and hand the enqueue to a
fresh goroutine (`pendingEnqueues`) so the caller never blocks on the
channel; the channel itself is untouched on the caller's path. -/
def SubmitJob (svc : Service) (t : Nat) (req : Request) : String × Service :=
  let id := generateJobID t
  (id, { svc with
          jobs := mapSet svc.jobs id (initJob req),
          pendingEnqueues := svc.pendingEnqueues ++ [id] })

/-- Go `Service.CancelJob`.  On success the pair holds the updated job
map and whether the stored cancellation handle was invoked. -/
def CancelJob (jobs : List (String × Job)) (id : String) :
    Except String (List (String × Job) × Bool) :=
  match lookupJob jobs id with
  | none => Except.error "job not found"
  | some j =>
    match j.status with
    | Status.completed => Except.error "job already finished"
    | Status.failed => Except.error "job already finished"
    | Status.cancelled => Except.ok (jobs, false)
    | _ => Except.ok (mapSet jobs id { j with status := Status.cancelled }, j.cancelFunc)

/-! ## Upscale (validation, spawn, wait, introspection) -/

deriving instance DecidableEq for Except

/-- Environment resolving the effectful calls made by `Service.Upscale`:
existence checks (`os.Stat` via `os.IsNotExist`), the decoded input and
output dimensions, pipe/start/wait outcomes and the final `os.Stat` size. -/
structure UEnv where
  binaryExists : Bool
  inputExists : Bool
  modelPathExists : Bool
  modelParamExists : Bool
  inputSize : Option ImageSize
  stderrPipeOk : Bool
  startOk : Bool
  waitErr : Option String
  outputSize : Option ImageSize
  statSize : Option Int
deriving DecidableEq

/-- Go `Service.validate`: binary present, input present, scale in 2..4,
model directory or `.param` file present — checked in that order. -/
def validate (cfg : Config) (req : Request) (env : UEnv) : Option String :=
  if !env.binaryExists then
    some ("upscaler binary not found: " ++ cfg.binaryPath)
  else if !env.inputExists then
    some ("input file not found: " ++ req.inputPath)
  else if req.scale < 2 ∨ req.scale > 4 then
    some ("invalid scale: " ++ toString req.scale ++ " (must be 2, 3, or 4)")
  else if !env.modelPathExists && !env.modelParamExists then
    some ("model not found: " ++ req.modelName)
  else none

/-- Whether an `Except` value is a success. -/
def exOk : Except String Result → Bool
  | Except.ok _ => true
  | Except.error _ => false

/-- Outcome of one `Service.Upscale` call: whether `cmd.Start` was
reached, whether the stderr-scanner goroutine is still running when the
call returns (it is only left unjoined on the `cmd.Wait` error path), and
the returned value. -/
structure URun where
  spawned : Bool
  scannerLive : Bool
  outcome : Except String Result
deriving DecidableEq

/-- Go `Service.Upscale`: validate, read the input size, open the stderr
pipe, start the subprocess, wait, then introspect the produced output.
Mirrors the source's early returns; the progress-parsing goroutine's
callbacks are delivered as separate `Ev.progress` events. -/
def Upscale (cfg : Config) (req : Request) (env : UEnv) : URun :=
  match validate cfg req env with
  | some e => { spawned := false, scannerLive := false,
                outcome := Except.error ("validation failed: " ++ e) }
  | none =>
    match env.inputSize with
    | none => { spawned := false, scannerLive := false,
                outcome := Except.error "failed to get input size" }
    | some isz =>
      if !env.stderrPipeOk then
        { spawned := false, scannerLive := false,
          outcome := Except.error "failed to get stderr pipe" }
      else if !env.startOk then
        { spawned := true, scannerLive := false,
          outcome := Except.error "failed to start command" }
      else
        match env.waitErr with
        | some e =>
          { spawned := true, scannerLive := true,
            outcome := Except.error ("upscale failed: " ++ e) }
        | none =>
          match env.outputSize with
          | none => { spawned := true, scannerLive := false,
                      outcome := Except.error "failed to get output size" }
          | some osz =>
            match env.statSize with
            | none => { spawned := true, scannerLive := false,
                        outcome := Except.error "failed to stat output" }
            | some sz =>
              { spawned := true, scannerLive := false,
                outcome := Except.ok { outputPath := req.outputPath, inputSize := isz,
                                       outputSize := osz, fileSizeBytes := sz } }

/-! ## processJob as a labelled transition system

`processJob` runs concurrently with `CancelJob` and with the
stderr-scanner goroutine; the mutex only protects the individual field
updates.  Each lock-free gap in the worker body is a phase boundary, and
`CancelJob` / progress callbacks interleave as separate events. -/

/-- Per-job execution context: the service config and the scratch paths
derived from the home directory and the job identifier. -/
structure Ctx where
  cfg : Config
  tmpDir : String
  jobID : String
deriving DecidableEq

/-- Scratch copy of the request used for the `Upscale` call:
`req.InputPath = filepath.Join(tmpDir, id+"_"+Base(orig))` and
`req.OutputPath = filepath.Join(tmpDir, id+"_out_"+Base(orig))`;
`job.Request` itself is never mutated (`req` is a value copy). -/
def tmpReq (c : Ctx) (req : Request) : Request :=
  { req with
    inputPath := goJoinStr c.tmpDir (c.jobID ++ "_" ++ baseStr req.inputPath),
    outputPath := goJoinStr c.tmpDir (c.jobID ++ "_out_" ++ baseStr req.outputPath) }

/-- Worker position inside `processJob`; the payload of `pPost` /
`pPreFinal` is the pending `Upscale` outcome. -/
inductive Phase
  | pQueued
  | pStarted
  | pRunning
  | pPost (out : Except String Result)
  | pPreFinal (out : Except String Result)
  | pDone
deriving DecidableEq

/-- Whether a phase is `pPost`. -/
def Phase.isPostB : Phase → Bool
  | Phase.pPost _ => true
  | _ => false

/-- Whether a phase is `pPreFinal`. -/
def Phase.isPreB : Phase → Bool
  | Phase.pPreFinal _ => true
  | _ => false

/-- Pending outcome stored in the phase, when any. -/
def phaseOut : Phase → Option (Except String Result)
  | Phase.pPost o => some o
  | Phase.pPreFinal o => some o
  | _ => none

/-- Full state of one job's lifecycle: the record itself, the worker
phase, whether the job's context was cancelled (`ctx.Err() ==
context.Canceled`), whether the scanner goroutine can still fire
progress callbacks, which files exist (scratch input copy, artifact at
the requested final output path), and history flags used to state the
claims (`sawUpSuccess`: some `Upscale` call returned success;
`publishFailed`: the rename-and-copy publish failed; `earlyLeftover`: a
failed input copy left a partial scratch file; `spawnedEver`: some
`cmd.Start` was reached). -/
structure S where
  job : Job
  phase : Phase
  ctxCanceled : Bool
  scannerLive : Bool
  fsTmpIn : Bool
  fsFinalOut : Bool
  sawUpSuccess : Bool
  publishFailed : Bool
  earlyLeftover : Bool
  spawnedEver : Bool
deriving DecidableEq

/-- State right after `SubmitJob` stored the record. -/
def initS (req : Request) : S :=
  { job := initJob req, phase := Phase.pQueued, ctxCanceled := false,
    scannerLive := false, fsTmpIn := false, fsFinalOut := false,
    sawUpSuccess := false, publishFailed := false, earlyLeftover := false,
    spawnedEver := false }

/-- Events: an external `CancelJob` call, a progress callback from the
scanner goroutine, and the successive lock-delimited chunks of the worker
body.  Event payloads resolve the worker's effectful calls:
`wTmpFail` is a failed `MkdirAll`/`copyFile` for the scratch input
(`leftover`: the failed copy left a partial file), `wUpscale` carries the
environment of the `Upscale` call, `wPostUpscale` resolves the publish
block (`os.Rename`, fallback `copyFile`, `leftoverFinal`: a failed copy
left a partial file at the final path) followed by the scratch-input
removal, and `wFinalize` is the terminal locked section. -/
inductive Ev
  | cancel
  | progress (p : Int)
  | wStart
  | wTmpFail (mkdirFailed leftover : Bool) (cause : String)
  | wCopyDone
  | wUpscale (env : UEnv)
  | wPostUpscale (renameOk copyOk leftoverFinal : Bool) (mvErr cpErr : String)
  | wFinalize
deriving DecidableEq

/-- Go progress callback `onProgress` in `processJob`: update only when
the reported value exceeds the stored one. -/
def onProgress (p : Int) (j : Job) : Job :=
  if p > j.progress then { j with progress := p } else j

/-- State change of `Service.CancelJob` on this job (the returned
error/success is modelled by `CancelJob` on the registry): terminal
completed/failed and already-cancelled jobs are untouched, otherwise the
stored handle is invoked (when present) and the status flips. -/
def cancelStep (s : S) : S :=
  match s.job.status with
  | Status.completed => s
  | Status.failed => s
  | Status.cancelled => s
  | _ =>
    { s with job := { s.job with status := Status.cancelled },
             ctxCanceled := s.ctxCanceled || s.job.cancelFunc }

/-- One transition of the job lifecycle; `none` means the event cannot
occur in this state (the worker is elsewhere, or no progress source is
running). -/
def step (c : Ctx) (s : S) (e : Ev) : Option S :=
  match e with
  | Ev.cancel => some (cancelStep s)
  | Ev.progress p =>
    if s.phase = Phase.pRunning ∨ s.scannerLive = true then
      some { s with job := onProgress p s.job }
    else none
  | Ev.wStart =>
    match s.phase with
    | Phase.pQueued =>
      if s.job.status = Status.cancelled then
        some { s with phase := Phase.pDone }
      else
        some { s with
                job := { s.job with status := Status.processing,
                                    progress := 1,
                                    cancelFunc := true },
                phase := Phase.pStarted }
    | _ => none
  | Ev.wTmpFail mkdirFailed leftover cause =>
    match s.phase with
    | Phase.pStarted =>
      some { s with
              job := { s.job with status := Status.failed,
                                  error := some ((if mkdirFailed then "failed to create temp dir: "
                                                  else "failed to copy input to temp: ") ++ cause) },
              fsTmpIn := !mkdirFailed && leftover,
              earlyLeftover := !mkdirFailed && leftover,
              phase := Phase.pDone }
    | _ => none
  | Ev.wCopyDone =>
    match s.phase with
    | Phase.pStarted => some { s with fsTmpIn := true, phase := Phase.pRunning }
    | _ => none
  | Ev.wUpscale env =>
    match s.phase with
    | Phase.pRunning =>
      let r := Upscale c.cfg (tmpReq c s.job.request) env
      some { s with
              phase := Phase.pPost r.outcome,
              scannerLive := r.scannerLive,
              spawnedEver := s.spawnedEver || r.spawned,
              sawUpSuccess := s.sawUpSuccess || exOk r.outcome }
    | _ => none
  | Ev.wPostUpscale renameOk copyOk leftoverFinal mvErr cpErr =>
    match s.phase with
    | Phase.pPost out =>
      match out with
      | Except.ok r =>
        if renameOk || copyOk then
          some { s with fsFinalOut := true,
                        fsTmpIn := false,
                        phase := Phase.pPreFinal
                          (Except.ok { r with outputPath := s.job.request.outputPath }) }
        else
          some { s with
                  job := { s.job with status := Status.failed,
                                      error := some ("failed to move output to final location: rename="
                                                     ++ mvErr ++ " copy=" ++ cpErr) },
                  fsFinalOut := leftoverFinal,
                  publishFailed := true,
                  phase := Phase.pDone }
      | Except.error msg =>
        some { s with fsTmpIn := false, phase := Phase.pPreFinal (Except.error msg) }
    | _ => none
  | Ev.wFinalize =>
    match s.phase with
    | Phase.pPreFinal out =>
      let j0 := { s.job with cancelFunc := false }
      if j0.status = Status.cancelled then
        some { s with job := j0, phase := Phase.pDone }
      else
        match out with
        | Except.error msg =>
          if s.ctxCanceled then
            some { s with job := { j0 with status := Status.cancelled }, phase := Phase.pDone }
          else
            some { s with job := { j0 with status := Status.failed, error := some msg },
                          phase := Phase.pDone }
        | Except.ok r =>
          some { s with
                  job := { j0 with status := Status.completed,
                                   progress := 100,
                                   result := some r },
                  phase := Phase.pDone }
    | _ => none

/-- Run a sequence of events. -/
def run (c : Ctx) (s : S) : List Ev → Option S
  | [] => some s
  | e :: tr =>
    match step c s e with
    | none => none
    | some s' => run c s' tr

/-- States a job can actually be in after submission. -/
def Reachable (c : Ctx) (req : Request) (s : S) : Prop :=
  ∃ tr, run c (initS req) tr = some s

/-- Inductive invariant of the job lifecycle. -/
def Inv (s : S) : Prop :=
  (s.job.result.isSome = true ↔ s.job.status = Status.completed) ∧
  (s.job.error.isSome = true ↔ s.job.status = Status.failed) ∧
  (s.job.status = Status.completed →
    s.scannerLive = false ∧ s.phase = Phase.pDone ∧ s.job.progress = 100) ∧
  (s.job.status = Status.failed → s.phase = Phase.pDone) ∧
  (s.job.status = Status.queued →
    s.phase = Phase.pQueued ∧ s.job.progress = 0 ∧ s.scannerLive = false) ∧
  (s.phase = Phase.pQueued →
    s.job.status = Status.queued ∨ s.job.status = Status.cancelled) ∧
  (s.fsFinalOut = true → s.sawUpSuccess = true) ∧
  (s.fsTmpIn = true →
    s.phase = Phase.pRunning ∨ s.phase.isPostB = true ∨
    s.publishFailed = true ∨ s.earlyLeftover = true) ∧
  (s.publishFailed = true → s.phase = Phase.pDone) ∧
  (s.earlyLeftover = true → s.phase = Phase.pDone) ∧
  (∀ o, phaseOut s.phase = some o → exOk o = true →
    s.scannerLive = false ∧ s.sawUpSuccess = true) ∧
  ((s.phase = Phase.pStarted ∨ s.phase = Phase.pRunning ∨
    s.phase.isPostB = true ∨ s.phase.isPreB = true) →
    s.job.status = Status.processing ∨ s.job.status = Status.cancelled)

/-- Auxiliary invariant for the invalid-scale scenario: along any run
with no `cancel` event on a request whose scale is unsupported, the
subprocess is never spawned and the job can only be waiting, processing
or failed. -/
def GoodC5 (req : Request) (s : S) : Prop :=
  s.job.request = req ∧
  s.spawnedEver = false ∧
  s.ctxCanceled = false ∧
  (s.job.status = Status.queued ∨ s.job.status = Status.processing ∨
    s.job.status = Status.failed) ∧
  (s.phase = Phase.pDone → s.job.status = Status.failed) ∧
  (∀ o, phaseOut s.phase = some o → exOk o = false)

/-! ## Concrete sample data for witnesses and counterexamples -/

/-- Sample service configuration. -/
def cfg0 : Config :=
  { binaryPath := "/usr/local/bin/realesrgan-ncnn-vulkan",
    modelsPath := "/opt/models", defaultModel := "realesrgan-x4plus",
    defaultScale := 4, threads := "1:2:2", enableGPU := false, gpuID := 0 }

/-- Sample valid request. -/
def req0 : Request :=
  { inputPath := "/data/uploads/cat.png", outputPath := "/data/outputs/1_upscaled.png",
    scale := 4, modelName := "realesrgan-x4plus", tileSize := 0, format := "" }

/-- Sample request with an unsupported scale factor. -/
def req7 : Request :=
  { req0 with scale := 7 }

/-- Sample job execution context. -/
def ctx0 : Ctx :=
  { cfg := cfg0, tmpDir := "/root/.mlcupscale/tmp", jobID := "1700000000000000000" }

/-- Environment of a fully successful `Upscale` call. -/
def envOK : UEnv :=
  { binaryExists := true, inputExists := true, modelPathExists := true,
    modelParamExists := true, inputSize := some { width := 100, height := 100 },
    stderrPipeOk := true, startOk := true, waitErr := none,
    outputSize := some { width := 400, height := 400 }, statSize := some 123456 }

/-- Environment of an `Upscale` call whose subprocess was killed. -/
def envKill : UEnv :=
  { envOK with waitErr := some "signal: killed", outputSize := none, statSize := none }

/-- State reached from `initS req0` by a given trace (the traces used
below all succeed, so the default is never taken). -/
def sAfter (tr : List Ev) : S :=
  (run ctx0 (initS req0) tr).getD (initS req0)

/-- State reached from `initS req7` by a given trace. -/
def sAfter7 (tr : List Ev) : S :=
  (run ctx0 (initS req7) tr).getD (initS req7)

/-- Trace: job cancelled after the subprocess was killed mid-processing. -/
def trCancelMid : List Ev :=
  [Ev.wStart, Ev.wCopyDone, Ev.wUpscale envKill, Ev.cancel]

/-- Trace: subprocess succeeds, the job is cancelled in the race window
before the publish block, the worker publishes anyway and finalizes. -/
def trPublishCancelled : List Ev :=
  [Ev.wStart, Ev.wCopyDone, Ev.wUpscale envOK, Ev.cancel,
   Ev.wPostUpscale true true false "" "", Ev.wFinalize]

/-- Trace: subprocess reports 100 percent and then dies; job fails. -/
def trFail100 : List Ev :=
  [Ev.wStart, Ev.wCopyDone, Ev.progress 100, Ev.wUpscale envKill,
   Ev.wPostUpscale true true false "" "", Ev.wFinalize]

/-- Trace: upscale succeeds but both rename and copy of the output fail;
the worker returns early, leaking the scratch input copy. -/
def trPublishFail : List Ev :=
  [Ev.wStart, Ev.wCopyDone, Ev.wUpscale envOK,
   Ev.wPostUpscale false false false "cross-device link" "disk full"]

/-- Trace of a fully successful job. -/
def trComplete : List Ev :=
  [Ev.wStart, Ev.wCopyDone, Ev.wUpscale envOK,
   Ev.wPostUpscale true true false "" "", Ev.wFinalize]

/-- Trace of an invalid-scale job driven to completion of the worker. -/
def trScale7 : List Ev :=
  [Ev.wStart, Ev.wCopyDone, Ev.wUpscale envOK,
   Ev.wPostUpscale true true false "" "", Ev.wFinalize]

/-- Result of one step from a reached state. -/
def stepAfter (tr : List Ev) (e : Ev) : S :=
  (step ctx0 (sAfter tr) e).getD (initS req0)

/-- Empty service state. -/
def svc0 : Service :=
  { jobs := [], jobQueue := [], pendingEnqueues := [] }

/-- Sample directory listing for the sweeper: two stale entries (one of
which cannot be removed) around a fresh one. -/
def entsW : List DirEntry :=
  [{ name := "old1", info := some 50, removeOk := false },
   { name := "new1", info := some 95, removeOk := true },
   { name := "old2", info := some 60, removeOk := true }]

/-! ## Lemmas about decimal job identifiers -/

/-- A decimal digit character is neither a path separator nor a dot. -/
theorem decChar_ne (d : Nat) : decChar d ≠ '/' ∧ decChar d ≠ '.' := by
  unfold decChar
  split <;> exact ⟨by decide, by decide⟩

/-- Code of a decimal digit character. -/
theorem decChar_toNat (d : Nat) (h : d < 10) : (decChar d).toNat = 48 + d := by
  interval_cases d <;> rfl

/-- Decimal renderings are never empty. -/
theorem decChars_ne_nil (n : Nat) : decChars n ≠ [] := by
  rw [decChars]
  split <;> simp

/-- Every character of a decimal rendering is neither `'/'` nor `'.'`. -/
theorem mem_decChars_ne (n : Nat) : ∀ c ∈ decChars n, c ≠ '/' ∧ c ≠ '.' := by
  induction n using Nat.strong_induction_on with
  | _ n ih =>
    intro c hc
    rw [decChars] at hc
    by_cases h : n < 10
    · simp only [if_pos h, List.mem_singleton] at hc
      subst hc
      exact decChar_ne n
    · simp only [if_neg h, List.mem_append, List.mem_singleton] at hc
      rcases hc with hc | hc
      · exact ih (n / 10) (Nat.div_lt_self (by omega) (by omega)) c hc
      · subst hc
        exact decChar_ne (n % 10)

/-- Evaluating the digit string of `n` recovers `n`. -/
theorem decVal_decChars (n : Nat) : decVal (decChars n) = n := by
  induction n using Nat.strong_induction_on with
  | _ n ih =>
    rw [decChars]
    by_cases h : n < 10
    · simp only [if_pos h, decVal, List.foldl_cons, List.foldl_nil]
      rw [decChar_toNat n h]
      omega
    · simp only [if_neg h, decVal, List.foldl_append, List.foldl_cons, List.foldl_nil]
      have hrec := ih (n / 10) (Nat.div_lt_self (by omega) (by omega))
      simp only [decVal] at hrec
      rw [hrec, decChar_toNat (n % 10) (by omega)]
      omega

/-- Decimal rendering is injective. -/
theorem decChars_inj {a b : Nat} (h : decChars a = decChars b) : a = b := by
  have := decVal_decChars a
  rw [h, decVal_decChars b] at this
  omega

/-- Distinct nanosecond timestamps give distinct job identifiers. -/
theorem generateJobID_inj {a b : Nat} (h : a ≠ b) : generateJobID a ≠ generateJobID b := by
  intro hc
  exact h (decChars_inj (by injection hc))

/-! ## Registry lemmas -/

/-- Looking up a key just assigned returns the assigned value. -/
theorem lookupJob_mapSet (jobs : List (String × Job)) (id : String) (j : Job) :
    lookupJob (mapSet jobs id j) id = some j := by
  induction jobs with
  | nil => simp [mapSet, lookupJob]
  | cons kv rest ih =>
    obtain ⟨k, v⟩ := kv
    by_cases h : k = id
    · simp [mapSet, lookupJob, h]
    · simp [mapSet, lookupJob, h, ih]

/-! ## C6: CancelJob behaviour -/

/-- C6: `CancelJob` returns "job not found" for an unknown id; returns
"already finished" and changes nothing for a completed or failed job;
succeeds without change on an already-cancelled job; and otherwise
invokes the stored handle exactly when one is present and flips the
status to cancelled. -/
theorem C6_cancel_behaviour (jobs : List (String × Job)) (id : String) :
    (lookupJob jobs id = none → CancelJob jobs id = Except.error "job not found") ∧
    (∀ j, lookupJob jobs id = some j →
      (j.status = Status.completed ∨ j.status = Status.failed) →
      CancelJob jobs id = Except.error "job already finished") ∧
    (∀ j, lookupJob jobs id = some j → j.status = Status.cancelled →
      CancelJob jobs id = Except.ok (jobs, false)) ∧
    (∀ j, lookupJob jobs id = some j →
      j.status ≠ Status.completed → j.status ≠ Status.failed →
      j.status ≠ Status.cancelled →
      CancelJob jobs id =
        Except.ok (mapSet jobs id { j with status := Status.cancelled }, j.cancelFunc)) := by
  refine ⟨?_, ?_, ?_, ?_⟩
  · intro h
    simp [CancelJob, h]
  · intro j hj hst
    rcases hst with h | h <;> simp [CancelJob, hj, h]
  · intro j hj hst
    simp [CancelJob, hj, hst]
  · intro j hj h1 h2 h3
    cases hs : j.status <;> simp [CancelJob, hj, hs] <;> simp [hs] at h1 h2 h3

/-- C6 witness: concrete registry with one queued job carrying a handle. -/
theorem C6_cancel_behaviour_witness :
    CancelJob [("7", { initJob req0 with cancelFunc := true })] "8"
      = Except.error "job not found" ∧
    CancelJob [("7", { initJob req0 with cancelFunc := true })] "7"
      = Except.ok ([("7", { initJob req0 with status := Status.cancelled, cancelFunc := true })], true) := by
  constructor
  · exact (C6_cancel_behaviour [("7", { initJob req0 with cancelFunc := true })] "8").1 (by decide)
  · exact (C6_cancel_behaviour [("7", { initJob req0 with cancelFunc := true })] "7").2.2.2
      { initJob req0 with cancelFunc := true } (by decide) (by decide) (by decide) (by decide)

/-! ## C7: SubmitJob -/

/-- C7 counterexample: two distinct submissions in the same nanosecond
(`generateJobID` is just the timestamp) receive the same identifier, and
the second silently overwrites the first record. -/
theorem C7_counterexample :
    (SubmitJob svc0 5 req0).1 = (SubmitJob (SubmitJob svc0 5 req0).2 5 req7).1 ∧
    req0 ≠ req7 ∧
    lookupJob (SubmitJob (SubmitJob svc0 5 req0).2 5 req7).2.jobs (generateJobID 5)
      = some (initJob req7) := by
  refine ⟨rfl, by decide, ?_⟩
  exact lookupJob_mapSet (SubmitJob svc0 5 req0).2.jobs (generateJobID 5) (initJob req7)

/-- C7 amended: every submission creates a record with status queued and
progress 0, returns the decimal timestamp as identifier without touching
the dispatch channel on the caller's path (the enqueue is handed to a
goroutine), and identifiers from distinct timestamps are distinct —
uniqueness holds only across distinct `UnixNano` values. -/
theorem C7_submit_amended (svc : Service) (t : Nat) (req : Request) :
    (SubmitJob svc t req).1 = generateJobID t ∧
    lookupJob (SubmitJob svc t req).2.jobs (generateJobID t) = some (initJob req) ∧
    (initJob req).status = Status.queued ∧
    (initJob req).progress = 0 ∧
    (SubmitJob svc t req).2.jobQueue = svc.jobQueue ∧
    (∀ t2, t ≠ t2 → generateJobID t ≠ generateJobID t2) := by
  refine ⟨rfl, ?_, rfl, rfl, rfl, ?_⟩
  · exact lookupJob_mapSet svc.jobs (generateJobID t) (initJob req)
  · intro t2 h
    exact generateJobID_inj h

/-- C7 amended witness at a concrete submission and timestamp pair. -/
theorem C7_submit_amended_witness :
    (SubmitJob svc0 5 req0).1 = generateJobID 5 ∧
    generateJobID 5 ≠ generateJobID 6 := by
  exact ⟨(C7_submit_amended svc0 5 req0).1,
         (C7_submit_amended svc0 5 req0).2.2.2.2.2 6 (by decide)⟩

/-! ## C8: cleanup sweeper -/

/-- Every readable entry strictly older than the cutoff is attempted. -/
theorem cleanupDir_attempts (cutoff : Int) (entries : List DirEntry) :
    ∀ e ∈ entries, ∀ t, e.info = some t → t < cutoff →
      (e.name, e.removeOk) ∈ cleanupDir cutoff entries := by
  induction entries with
  | nil => simp
  | cons x rest ih =>
    intro e he t ht hlt
    rcases List.mem_cons.mp he with rfl | he2
    · simp [cleanupDir, ht, if_pos hlt]
    · cases hx : x.info with
      | none => simpa [cleanupDir, hx] using ih e he2 t ht hlt
      | some tx =>
        by_cases hc : tx < cutoff
        · simp only [cleanupDir, hx, if_pos hc, List.mem_cons]
          exact Or.inr (ih e he2 t ht hlt)
        · simpa [cleanupDir, hx, if_neg hc] using ih e he2 t ht hlt

/-- Only readable entries strictly older than the cutoff are attempted. -/
theorem cleanupDir_sound (cutoff : Int) (entries : List DirEntry) :
    ∀ n b, (n, b) ∈ cleanupDir cutoff entries →
      ∃ e ∈ entries, e.name = n ∧ e.removeOk = b ∧ ∃ t, e.info = some t ∧ t < cutoff := by
  induction entries with
  | nil => simp [cleanupDir]
  | cons x rest ih =>
    intro n b hm
    cases hx : x.info with
    | none =>
      simp only [cleanupDir, hx] at hm
      obtain ⟨e, he, h⟩ := ih n b hm
      exact ⟨e, List.mem_cons_of_mem x he, h⟩
    | some tx =>
      simp only [cleanupDir, hx] at hm
      by_cases hc : tx < cutoff
      · rw [if_pos hc] at hm
        rcases List.mem_cons.mp hm with h | h
        · have h1 : x.name = n := congrArg Prod.fst h.symm
          have h2 : x.removeOk = b := congrArg Prod.snd h.symm
          exact ⟨x, List.mem_cons_self x rest, h1, h2, tx, hx, hc⟩
        · obtain ⟨e, he, hrest⟩ := ih n b h
          exact ⟨e, List.mem_cons_of_mem x he, hrest⟩
      · rw [if_neg hc] at hm
        obtain ⟨e, he, hrest⟩ := ih n b hm
        exact ⟨e, List.mem_cons_of_mem x he, hrest⟩

/-- A failed removal does not stop the sweep: the loop is a homomorphism
over list concatenation. -/
theorem cleanupDir_append (cutoff : Int) (xs ys : List DirEntry) :
    cleanupDir cutoff (xs ++ ys) = cleanupDir cutoff xs ++ cleanupDir cutoff ys := by
  induction xs with
  | nil => simp [cleanupDir]
  | cons x rest ih =>
    cases hx : x.info with
    | none => simp [cleanupDir, hx, ih]
    | some tx =>
      by_cases hc : tx < cutoff
      · simp [cleanupDir, hx, if_pos hc, ih]
      · simp [cleanupDir, hx, if_neg hc, ih]

/-- C8: one sweep with cutoff `now - TTL` attempts exactly the readable
entries of each directory whose modification time is strictly older than
the cutoff (an entry is removed exactly when its removal succeeds), no
newer entry is touched, and a failed removal is skipped while the rest of
the directory is still processed. -/
theorem C8_cleanup_exact (now ttl : Int) (us os : List DirEntry) :
    (∀ e ∈ us, ∀ t, e.info = some t → t < now - ttl →
      (e.name, e.removeOk) ∈ (CleanupOldFiles now ttl us os).1) ∧
    (∀ e ∈ os, ∀ t, e.info = some t → t < now - ttl →
      (e.name, e.removeOk) ∈ (CleanupOldFiles now ttl us os).2) ∧
    (∀ n b, (n, b) ∈ (CleanupOldFiles now ttl us os).1 →
      ∃ e ∈ us, e.name = n ∧ e.removeOk = b ∧ ∃ t, e.info = some t ∧ t < now - ttl) ∧
    (∀ n b, (n, b) ∈ (CleanupOldFiles now ttl us os).2 →
      ∃ e ∈ os, e.name = n ∧ e.removeOk = b ∧ ∃ t, e.info = some t ∧ t < now - ttl) ∧
    (∀ xs ys, cleanupDir (now - ttl) (xs ++ ys)
      = cleanupDir (now - ttl) xs ++ cleanupDir (now - ttl) ys) := by
  exact ⟨cleanupDir_attempts (now - ttl) us, cleanupDir_attempts (now - ttl) os,
         cleanupDir_sound (now - ttl) us, cleanupDir_sound (now - ttl) os,
         fun xs ys => cleanupDir_append (now - ttl) xs ys⟩

/-- C8 witness: an old entry whose removal fails is attempted, the newer
entry is untouched, and the second old entry is still removed. -/
theorem C8_cleanup_exact_witness :
    ("old1", false) ∈ (CleanupOldFiles 100 10 entsW []).1 ∧
    ("old2", true) ∈ (CleanupOldFiles 100 10 entsW []).1 ∧
    ("new1", true) ∉ (CleanupOldFiles 100 10 entsW []).1 := by
  refine ⟨?_, ?_, by decide⟩
  · exact (C8_cleanup_exact 100 10 entsW []).1
      { name := "old1", info := some 50, removeOk := false } (by decide) 50 rfl (by decide)
  · exact (C8_cleanup_exact 100 10 entsW []).1
      { name := "old2", info := some 60, removeOk := true } (by decide) 60 rfl (by decide)

/-! ## Upscale and progress-callback lemmas -/

/-- The scratch rewrite keeps the requested scale factor. -/
theorem tmpReq_scale (c : Ctx) (r : Request) : (tmpReq c r).scale = r.scale := rfl

/-- An unsupported scale makes `validate` fail whatever the environment
says about binaries, inputs and models. -/
theorem validate_invalid_scale (cfg : Config) (req : Request) (env : UEnv)
    (h : req.scale < 2 ∨ req.scale > 4) :
    ∃ e, validate cfg req env = some e := by
  unfold validate
  by_cases hb : env.binaryExists <;> by_cases hi : env.inputExists <;> simp [hb, hi, h]

/-- An unsupported scale means `Upscale` reports an error without ever
reaching `cmd.Start` and without leaving a scanner goroutine behind. -/
theorem Upscale_invalid_scale (cfg : Config) (req : Request) (env : UEnv)
    (h : req.scale < 2 ∨ req.scale > 4) :
    (Upscale cfg req env).spawned = false ∧
    exOk (Upscale cfg req env).outcome = false ∧
    (Upscale cfg req env).scannerLive = false := by
  obtain ⟨e, he⟩ := validate_invalid_scale cfg req env h
  simp [Upscale, he, exOk]

/-- A successful `Upscale` call has joined its scanner goroutine. -/
theorem Upscale_ok_scanner (cfg : Config) (req : Request) (env : UEnv)
    (h : exOk (Upscale cfg req env).outcome = true) :
    (Upscale cfg req env).scannerLive = false := by
  cases hv : validate cfg req env with
  | some e => simp [Upscale, hv, exOk] at h
  | none =>
    cases hin : env.inputSize with
    | none => simp [Upscale, hv, hin, exOk] at h
    | some isz =>
      by_cases hp : env.stderrPipeOk
      · by_cases hs : env.startOk
        · cases hw : env.waitErr with
          | some e => simp [Upscale, hv, hin, hp, hs, hw, exOk] at h
          | none =>
            cases ho : env.outputSize with
            | none => simp [Upscale, hv, hin, hp, hs, hw, ho, exOk] at h
            | some osz =>
              cases hst : env.statSize with
              | none => simp [Upscale, hv, hin, hp, hs, hw, ho, hst, exOk] at h
              | some sz => simp [Upscale, hv, hin, hp, hs, hw, ho, hst, exOk]
        · simp [Upscale, hv, hin, hp, hs, exOk] at h
      · simp [Upscale, hv, hin, hp, exOk] at h

/-- The progress callback never touches the status. -/
theorem onProgress_status (p : Int) (j : Job) : (onProgress p j).status = j.status := by
  unfold onProgress
  split <;> rfl

/-- The progress callback never touches the request. -/
theorem onProgress_request (p : Int) (j : Job) : (onProgress p j).request = j.request := by
  unfold onProgress
  split <;> rfl

/-- The progress callback never touches the result. -/
theorem onProgress_result (p : Int) (j : Job) : (onProgress p j).result = j.result := by
  unfold onProgress
  split <;> rfl

/-- The progress callback never touches the error. -/
theorem onProgress_error (p : Int) (j : Job) : (onProgress p j).error = j.error := by
  unfold onProgress
  split <;> rfl

/-- The progress callback never touches the cancellation handle. -/
theorem onProgress_cancelFunc (p : Int) (j : Job) :
    (onProgress p j).cancelFunc = j.cancelFunc := by
  unfold onProgress
  split <;> rfl

/-- The progress callback is clamped to non-decreasing updates. -/
theorem onProgress_mono (p : Int) (j : Job) : j.progress ≤ (onProgress p j).progress := by
  unfold onProgress
  split
  · rename_i h
    show j.progress ≤ p
    omega
  · exact le_refl _


/-! ## C5: invalid scale -/

/-- Initial state of the invalid-scale invariant. -/
theorem goodC5_init (req : Request) : GoodC5 req (initS req) := by
  refine ⟨rfl, rfl, rfl, Or.inl rfl, ?_, ?_⟩
  · intro h
    simp [initS] at h
  · intro o h
    simp [initS, phaseOut] at h

/-- The invalid-scale invariant is preserved by every non-cancel event. -/
theorem goodC5_step (c : Ctx) (req : Request) (s s' : S) (e : Ev)
    (hscale : req.scale < 2 ∨ req.scale > 4)
    (hg : GoodC5 req s) (hnc : e ≠ Ev.cancel) (hstep : step c s e = some s') :
    GoodC5 req s' := by
  obtain ⟨hreq, hsp, hctx, hst, hdone, hout⟩ := hg
  cases e with
  | cancel => exact absurd rfl hnc
  | progress p =>
    simp only [step] at hstep
    split at hstep
    · rw [Option.some.injEq] at hstep
      subst hstep
      refine ⟨?_, hsp, hctx, ?_, ?_, hout⟩
      · rw [onProgress_request, hreq]
      · rw [onProgress_status]
        exact hst
      · intro h
        rw [onProgress_status]
        exact hdone h
    · cases hstep
  | wStart =>
    simp only [step] at hstep
    split at hstep
    · rename_i hq
      split at hstep
      · rename_i hc
        rcases hst with h | h | h <;> rw [h] at hc <;> cases hc
      · rw [Option.some.injEq] at hstep
        subst hstep
        refine ⟨hreq, hsp, hctx, Or.inr (Or.inl rfl), ?_, ?_⟩
        · intro h
          cases h
        · intro o h
          cases h
    · cases hstep
  | wTmpFail mk lv cause =>
    simp only [step] at hstep
    split at hstep
    · rw [Option.some.injEq] at hstep
      subst hstep
      refine ⟨hreq, hsp, hctx, Or.inr (Or.inr rfl), fun _ => rfl, ?_⟩
      intro o h
      cases h
    · cases hstep
  | wCopyDone =>
    simp only [step] at hstep
    split at hstep
    · rw [Option.some.injEq] at hstep
      subst hstep
      refine ⟨hreq, hsp, hctx, hst, ?_, ?_⟩
      · intro h
        cases h
      · intro o h
        cases h
    · cases hstep
  | wUpscale env =>
    simp only [step] at hstep
    split at hstep
    · rw [Option.some.injEq] at hstep
      subst hstep
      have hts : (tmpReq c s.job.request).scale < 2 ∨ (tmpReq c s.job.request).scale > 4 := by
        rw [tmpReq_scale, hreq]
        exact hscale
      obtain ⟨hspawn, hok, _⟩ := Upscale_invalid_scale c.cfg (tmpReq c s.job.request) env hts
      refine ⟨hreq, ?_, hctx, hst, ?_, ?_⟩
      · simp [hsp, hspawn]
      · intro h
        cases h
      · intro o h
        simp only [phaseOut, Option.some.injEq] at h
        rw [← h]
        exact hok
    · cases hstep
  | wPostUpscale renameOk copyOk lvf mvErr cpErr =>
    simp only [step] at hstep
    split at hstep
    · rename_i out hph
      cases out with
      | ok r =>
        have := hout (Except.ok r) (by rw [hph]; rfl)
        simp [exOk] at this
      | error msg =>
        rw [Option.some.injEq] at hstep
        subst hstep
        refine ⟨hreq, hsp, hctx, hst, ?_, ?_⟩
        · intro h
          cases h
        · intro o h
          simp only [phaseOut, Option.some.injEq] at h
          rw [← h]
          rfl
    · cases hstep
  | wFinalize =>
    simp only [step] at hstep
    split at hstep
    · rename_i out hph
      split at hstep
      · rename_i hc
        have hc2 : s.job.status = Status.cancelled := hc
        rcases hst with h | h | h <;> rw [h] at hc2 <;> cases hc2
      · cases out with
        | error msg =>
          rw [hctx] at hstep
          simp only [Bool.false_eq_true, if_false] at hstep
          rw [Option.some.injEq] at hstep
          subst hstep
          refine ⟨hreq, hsp, rfl, Or.inr (Or.inr rfl), fun _ => rfl, ?_⟩
          intro o h
          cases h
        | ok r =>
          have := hout (Except.ok r) (by rw [hph]; rfl)
          simp [exOk] at this
    · cases hstep

/-- The invalid-scale invariant holds along every cancel-free run. -/
theorem goodC5_run (c : Ctx) (req : Request) (tr : List Ev)
    (hscale : req.scale < 2 ∨ req.scale > 4) :
    ∀ s s', GoodC5 req s → Ev.cancel ∉ tr → run c s tr = some s' → GoodC5 req s' := by
  induction tr with
  | nil =>
    intro s s' hg _ hr
    simp only [run, Option.some.injEq] at hr
    subst hr
    exact hg
  | cons e rest ih =>
    intro s s' hg hnc hr
    simp only [run] at hr
    cases hs1 : step c s e with
    | none => rw [hs1] at hr; cases hr
    | some s1 =>
      rw [hs1] at hr
      have hne : e ≠ Ev.cancel := fun h => hnc (h ▸ List.mem_cons_self e rest)
      have h1 : GoodC5 req s1 := goodC5_step c req s s1 e hscale hg hne hs1
      exact ih s1 s' h1 (fun h => hnc (List.mem_cons_of_mem e h)) hr

/-- C5: a request with an unsupported scale factor is rejected by the
validation stage with a message naming the allowed scale set (2, 3, or
4), the subprocess is never spawned — validation precedes `cmd.Start` —
and along any cancel-free run the job can only settle as failed. -/
theorem C5_invalid_scale (cfg : Config) (req : Request) (env : UEnv) (c : Ctx)
    (tr : List Ev) (s : S) (hscale : req.scale < 2 ∨ req.scale > 4) :
    (env.binaryExists = true → env.inputExists = true →
      (Upscale cfg req env).outcome = Except.error
        ("validation failed: " ++
         ("invalid scale: " ++ toString req.scale ++ " (must be 2, 3, or 4)"))) ∧
    (Upscale cfg req env).spawned = false ∧
    (Ev.cancel ∉ tr → run c (initS req) tr = some s →
      s.spawnedEver = false ∧ (s.phase = Phase.pDone → s.job.status = Status.failed)) := by
  refine ⟨?_, (Upscale_invalid_scale cfg req env hscale).1, ?_⟩
  · intro hb hi
    have hv : validate cfg req env =
        some ("invalid scale: " ++ toString req.scale ++ " (must be 2, 3, or 4)") := by
      unfold validate
      simp [hb, hi, hscale]
    simp [Upscale, hv]
  · intro hnc hr
    have hg := goodC5_run c req tr hscale (initS req) s (goodC5_init req) hnc hr
    exact ⟨hg.2.1, hg.2.2.2.2.1⟩

/-- C5 witness: scale 7 with binary, input and model all present. -/
theorem C5_invalid_scale_witness :
    (Upscale cfg0 req7 envOK).outcome = Except.error
      ("validation failed: " ++
       ("invalid scale: " ++ toString req7.scale ++ " (must be 2, 3, or 4)")) ∧
    (Upscale cfg0 req7 envOK).spawned = false ∧
    (sAfter7 trScale7).spawnedEver = false ∧
    (sAfter7 trScale7).job.status = Status.failed := by
  have h := C5_invalid_scale cfg0 req7 envOK ctx0 trScale7 (sAfter7 trScale7) (by decide)
  have h3 := h.2.2 (by decide) (by decide)
  exact ⟨h.1 rfl rfl, h.2.1, h3.1, h3.2 (by decide)⟩

/-- The invariant holds right after submission. -/
theorem inv_init (req : Request) : Inv (initS req) := by
  refine ⟨?_, ?_, ?_, ?_, ?_, ?_, ?_, ?_, ?_, ?_, ?_, ?_⟩ <;>
    simp [initS, initJob, Inv, Phase.isPostB, Phase.isPreB, phaseOut]

set_option maxHeartbeats 2000000 in
/-- The invariant is preserved by every transition. -/
theorem inv_step (c : Ctx) (s s' : S) (e : Ev) (hI : Inv s) (hstep : step c s e = some s') :
    Inv s' := by
  obtain ⟨i1, i2, i3, i4, i5, i6, i7, i8, i9, i10, i11, i12⟩ := hI
  cases e with
  | cancel =>
    simp only [step, Option.some.injEq] at hstep
    subst hstep
    cases hst : s.job.status with
    | completed =>
      simp only [cancelStep, hst]
      exact ⟨i1, i2, i3, i4, i5, i6, i7, i8, i9, i10, i11, i12⟩
    | failed =>
      simp only [cancelStep, hst]
      exact ⟨i1, i2, i3, i4, i5, i6, i7, i8, i9, i10, i11, i12⟩
    | cancelled =>
      simp only [cancelStep, hst]
      exact ⟨i1, i2, i3, i4, i5, i6, i7, i8, i9, i10, i11, i12⟩
    | queued =>
      simp only [cancelStep, hst]
      refine ⟨?_, ?_, ?_, ?_, ?_, ?_, ?_, ?_, ?_, ?_, ?_, ?_⟩ <;>
        simp_all [Phase.isPostB, Phase.isPreB, phaseOut, exOk]
    | processing =>
      simp only [cancelStep, hst]
      refine ⟨?_, ?_, ?_, ?_, ?_, ?_, ?_, ?_, ?_, ?_, ?_, ?_⟩ <;>
        simp_all [Phase.isPostB, Phase.isPreB, phaseOut, exOk]
  | progress p =>
    simp only [step] at hstep
    split at hstep
    · rw [Option.some.injEq] at hstep
      subst hstep
      rename_i hen
      have hnc : s.job.status ≠ Status.completed := by
        intro h
        obtain ⟨hsl, hpd, _⟩ := i3 h
        rcases hen with h2 | h2
        · rw [hpd] at h2; cases h2
        · rw [hsl] at h2; cases h2
      have hnq : s.job.status ≠ Status.queued := by
        intro h
        obtain ⟨hpq, _, hsl⟩ := i5 h
        rcases hen with h2 | h2
        · rw [hpq] at h2; cases h2
        · rw [hsl] at h2; cases h2
      refine ⟨?_, ?_, ?_, ?_, ?_, ?_, ?_, ?_, ?_, ?_, ?_, ?_⟩ <;>
        simp_all [onProgress_status, onProgress_result, onProgress_error,
                  onProgress_cancelFunc, Phase.isPostB, Phase.isPreB, phaseOut, exOk]
    · cases hstep
  | wStart =>
    simp only [step] at hstep
    split at hstep
    · rename_i hq
      split at hstep
      · rw [Option.some.injEq] at hstep
        subst hstep
        rename_i hc
        refine ⟨?_, ?_, ?_, ?_, ?_, ?_, ?_, ?_, ?_, ?_, ?_, ?_⟩ <;>
          simp_all [Phase.isPostB, Phase.isPreB, phaseOut, exOk]
      · rw [Option.some.injEq] at hstep
        subst hstep
        rename_i hc
        refine ⟨?_, ?_, ?_, ?_, ?_, ?_, ?_, ?_, ?_, ?_, ?_, ?_⟩ <;>
          simp_all [Phase.isPostB, Phase.isPreB, phaseOut, exOk]
    · cases hstep
  | wTmpFail mk lv cause =>
    simp only [step] at hstep
    split at hstep
    · rw [Option.some.injEq] at hstep
      subst hstep
      rename_i hph
      refine ⟨?_, ?_, ?_, ?_, ?_, ?_, ?_, ?_, ?_, ?_, ?_, ?_⟩ <;>
        simp_all [Phase.isPostB, Phase.isPreB, phaseOut, exOk]
    · cases hstep
  | wCopyDone =>
    simp only [step] at hstep
    split at hstep
    · rw [Option.some.injEq] at hstep
      subst hstep
      rename_i hph
      refine ⟨?_, ?_, ?_, ?_, ?_, ?_, ?_, ?_, ?_, ?_, ?_, ?_⟩ <;>
        simp_all [Phase.isPostB, Phase.isPreB, phaseOut, exOk]
    · cases hstep
  | wUpscale env =>
    simp only [step] at hstep
    split at hstep
    · rw [Option.some.injEq] at hstep
      subst hstep
      rename_i hph
      have hscan := Upscale_ok_scanner c.cfg (tmpReq c s.job.request) env
      refine ⟨?_, ?_, ?_, ?_, ?_, ?_, ?_, ?_, ?_, ?_, ?_, ?_⟩ <;>
        simp_all [Phase.isPostB, Phase.isPreB, phaseOut, exOk]
    · cases hstep
  | wPostUpscale renameOk copyOk lvf mvErr cpErr =>
    simp only [step] at hstep
    split at hstep
    · rename_i out hph
      split at hstep
      · rename_i r heq
        split at hstep
        · rw [Option.some.injEq] at hstep
          subst hstep
          rename_i hrc
          refine ⟨?_, ?_, ?_, ?_, ?_, ?_, ?_, ?_, ?_, ?_, ?_, ?_⟩ <;>
            simp_all [Phase.isPostB, Phase.isPreB, phaseOut, exOk]
        · rw [Option.some.injEq] at hstep
          subst hstep
          rename_i hrc
          refine ⟨?_, ?_, ?_, ?_, ?_, ?_, ?_, ?_, ?_, ?_, ?_, ?_⟩ <;>
            simp_all [Phase.isPostB, Phase.isPreB, phaseOut, exOk]
      · rename_i msg heq
        rw [Option.some.injEq] at hstep
        subst hstep
        refine ⟨?_, ?_, ?_, ?_, ?_, ?_, ?_, ?_, ?_, ?_, ?_, ?_⟩ <;>
          simp_all [Phase.isPostB, Phase.isPreB, phaseOut, exOk]
    · cases hstep
  | wFinalize =>
    simp only [step] at hstep
    split at hstep
    · rename_i out hph
      split at hstep
      · rw [Option.some.injEq] at hstep
        subst hstep
        rename_i hc
        have hc2 : s.job.status = Status.cancelled := hc
        refine ⟨?_, ?_, ?_, ?_, ?_, ?_, ?_, ?_, ?_, ?_, ?_, ?_⟩ <;>
          simp_all [Phase.isPostB, Phase.isPreB, phaseOut, exOk]
      · rename_i hc
        have hc2 : s.job.status ≠ Status.cancelled := fun hh => hc hh
        split at hstep
        · rename_i msg heq
          split at hstep
          · rw [Option.some.injEq] at hstep
            subst hstep
            rename_i hctx
            refine ⟨?_, ?_, ?_, ?_, ?_, ?_, ?_, ?_, ?_, ?_, ?_, ?_⟩ <;>
              simp_all [Phase.isPostB, Phase.isPreB, phaseOut, exOk]
          · rw [Option.some.injEq] at hstep
            subst hstep
            rename_i hctx
            refine ⟨?_, ?_, ?_, ?_, ?_, ?_, ?_, ?_, ?_, ?_, ?_, ?_⟩ <;>
              simp_all [Phase.isPostB, Phase.isPreB, phaseOut, exOk]
        · rename_i r heq
          rw [Option.some.injEq] at hstep
          subst hstep
          refine ⟨?_, ?_, ?_, ?_, ?_, ?_, ?_, ?_, ?_, ?_, ?_, ?_⟩ <;>
            simp_all [Phase.isPostB, Phase.isPreB, phaseOut, exOk]
    · cases hstep

/-- The invariant is preserved by every run. -/
theorem inv_run (c : Ctx) (tr : List Ev) :
    ∀ s s', Inv s → run c s tr = some s' → Inv s' := by
  induction tr with
  | nil =>
    intro s s' h hr
    simp only [run, Option.some.injEq] at hr
    subst hr
    exact h
  | cons e rest ih =>
    intro s s' h hr
    simp only [run] at hr
    cases hs1 : step c s e with
    | none => rw [hs1] at hr; cases hr
    | some s1 =>
      rw [hs1] at hr
      exact ih s1 s' (inv_step c s s1 e h hs1) hr

/-- Every reachable state satisfies the invariant. -/
theorem inv_reachable (c : Ctx) (req : Request) (s : S) (h : Reachable c req s) : Inv s := by
  obtain ⟨tr, hr⟩ := h
  exact inv_run c tr (initS req) s (inv_init req) hr

set_option maxHeartbeats 2000000 in
/-- Per-transition facts about status changes and progress: what each
terminal status still allows, which statuses each status can come from,
and the only possible progress decrease (the completion clamp to 100). -/
theorem step_facts (c : Ctx) (s s' : S) (e : Ev) (hI : Inv s) (hstep : step c s e = some s') :
    (s.job.status = Status.completed →
      s'.job.status = Status.completed ∧ s'.job.progress = s.job.progress ∧
      s'.job.result = s.job.result ∧ s'.job.error = s.job.error ∧
      s'.job.cancelFunc = s.job.cancelFunc ∧ s'.job.request = s.job.request) ∧
    (s.job.status = Status.failed →
      s'.job.status = Status.failed ∧ s'.job.result = s.job.result ∧
      s'.job.error = s.job.error ∧ s'.job.cancelFunc = s.job.cancelFunc ∧
      s'.job.request = s.job.request ∧ s.job.progress ≤ s'.job.progress) ∧
    (s.job.status = Status.cancelled →
      (s'.job.status = Status.cancelled ∨ s'.job.status = Status.failed) ∧
      s'.job.result = s.job.result ∧ s.job.progress ≤ s'.job.progress) ∧
    (s'.job.status = Status.completed →
      s.job.status = Status.processing ∨ s.job.status = Status.completed) ∧
    (s'.job.status = Status.processing →
      s.job.status = Status.queued ∨ s.job.status = Status.processing) ∧
    (s'.job.status = Status.queued → s.job.status = Status.queued) ∧
    (s'.job.status = Status.failed →
      s.job.status = Status.processing ∨ s.job.status = Status.cancelled ∨
      s.job.status = Status.failed) ∧
    (s'.job.status = Status.cancelled →
      s.job.status ≠ Status.completed ∧ s.job.status ≠ Status.failed) ∧
    (s.job.progress ≤ s'.job.progress ∨
      (100 < s.job.progress ∧ s'.job.progress = 100 ∧ s'.job.status = Status.completed)) := by
  obtain ⟨i1, i2, i3, i4, i5, i6, i7, i8, i9, i10, i11, i12⟩ := hI
  cases e with
  | cancel =>
    simp only [step, Option.some.injEq] at hstep
    subst hstep
    cases hst : s.job.status with
    | completed =>
      simp only [cancelStep, hst]
      refine ⟨?_, ?_, ?_, ?_, ?_, ?_, ?_, ?_, ?_⟩ <;> simp_all
    | failed =>
      simp only [cancelStep, hst]
      refine ⟨?_, ?_, ?_, ?_, ?_, ?_, ?_, ?_, ?_⟩ <;> simp_all
    | cancelled =>
      simp only [cancelStep, hst]
      refine ⟨?_, ?_, ?_, ?_, ?_, ?_, ?_, ?_, ?_⟩ <;> simp_all
    | queued =>
      simp only [cancelStep, hst]
      refine ⟨?_, ?_, ?_, ?_, ?_, ?_, ?_, ?_, ?_⟩ <;> simp_all
    | processing =>
      simp only [cancelStep, hst]
      refine ⟨?_, ?_, ?_, ?_, ?_, ?_, ?_, ?_, ?_⟩ <;> simp_all
  | progress p =>
    simp only [step] at hstep
    split at hstep
    · rw [Option.some.injEq] at hstep
      subst hstep
      rename_i hen
      have hnc : s.job.status ≠ Status.completed := by
        intro h
        obtain ⟨hsl, hpd, _⟩ := i3 h
        rcases hen with h2 | h2
        · rw [hpd] at h2; cases h2
        · rw [hsl] at h2; cases h2
      refine ⟨?_, ?_, ?_, ?_, ?_, ?_, ?_, ?_, ?_⟩ <;>
        simp_all [onProgress_status, onProgress_request, onProgress_result,
                  onProgress_error, onProgress_cancelFunc, onProgress_mono]
    · cases hstep
  | wStart =>
    simp only [step] at hstep
    split at hstep
    · rename_i hq
      have hqs := i6 hq
      split at hstep
      · rw [Option.some.injEq] at hstep
        subst hstep
        rename_i hc
        refine ⟨?_, ?_, ?_, ?_, ?_, ?_, ?_, ?_, ?_⟩ <;> simp_all
      · rw [Option.some.injEq] at hstep
        subst hstep
        rename_i hc
        have hqq : s.job.status = Status.queued := by
          rcases hqs with h | h
          · exact h
          · exact absurd h hc
        refine ⟨?_, ?_, ?_, ?_, ?_, ?_, ?_, ?_, ?_⟩ <;> simp_all [i5 hqq]
    · cases hstep
  | wTmpFail mk lv cause =>
    simp only [step] at hstep
    split at hstep
    · rw [Option.some.injEq] at hstep
      subst hstep
      rename_i hph
      have hps := i12 (Or.inl hph)
      refine ⟨?_, ?_, ?_, ?_, ?_, ?_, ?_, ?_, ?_⟩ <;> simp_all
    · cases hstep
  | wCopyDone =>
    simp only [step] at hstep
    split at hstep
    · rw [Option.some.injEq] at hstep
      subst hstep
      rename_i hph
      have hps := i12 (Or.inl hph)
      refine ⟨?_, ?_, ?_, ?_, ?_, ?_, ?_, ?_, ?_⟩ <;> simp_all
    · cases hstep
  | wUpscale env =>
    simp only [step] at hstep
    split at hstep
    · rw [Option.some.injEq] at hstep
      subst hstep
      rename_i hph
      have hps := i12 (Or.inr (Or.inl hph))
      refine ⟨?_, ?_, ?_, ?_, ?_, ?_, ?_, ?_, ?_⟩ <;> simp_all
    · cases hstep
  | wPostUpscale renameOk copyOk lvf mvErr cpErr =>
    simp only [step] at hstep
    split at hstep
    · rename_i out hph
      have hps := i12 (Or.inr (Or.inr (Or.inl (by rw [hph]; rfl))))
      split at hstep
      · rename_i r heq
        split at hstep
        · rw [Option.some.injEq] at hstep
          subst hstep
          rename_i hrc
          refine ⟨?_, ?_, ?_, ?_, ?_, ?_, ?_, ?_, ?_⟩ <;> simp_all
        · rw [Option.some.injEq] at hstep
          subst hstep
          rename_i hrc
          refine ⟨?_, ?_, ?_, ?_, ?_, ?_, ?_, ?_, ?_⟩ <;> simp_all
      · rename_i msg heq
        rw [Option.some.injEq] at hstep
        subst hstep
        refine ⟨?_, ?_, ?_, ?_, ?_, ?_, ?_, ?_, ?_⟩ <;> simp_all
    · cases hstep
  | wFinalize =>
    simp only [step] at hstep
    split at hstep
    · rename_i out hph
      have hps := i12 (Or.inr (Or.inr (Or.inr (by rw [hph]; rfl))))
      split at hstep
      · rw [Option.some.injEq] at hstep
        subst hstep
        rename_i hc
        have hc2 : s.job.status = Status.cancelled := hc
        refine ⟨?_, ?_, ?_, ?_, ?_, ?_, ?_, ?_, ?_⟩ <;> simp_all
      · rename_i hc
        have hc2 : s.job.status ≠ Status.cancelled := fun hh => hc hh
        have hpr : s.job.status = Status.processing := by
          rcases hps with h | h
          · exact h
          · exact absurd h hc2
        split at hstep
        · rename_i msg heq
          split at hstep
          · rw [Option.some.injEq] at hstep
            subst hstep
            rename_i hctx
            refine ⟨?_, ?_, ?_, ?_, ?_, ?_, ?_, ?_, ?_⟩ <;> simp_all
          · rw [Option.some.injEq] at hstep
            subst hstep
            rename_i hctx
            refine ⟨?_, ?_, ?_, ?_, ?_, ?_, ?_, ?_, ?_⟩ <;> simp_all
        · rename_i r heq
          rw [Option.some.injEq] at hstep
          subst hstep
          refine ⟨?_, ?_, ?_, ?_, ?_, ?_, ?_, ?_, ?_⟩
          case refine_9 =>
            exact (le_or_lt s.job.progress 100).elim Or.inl
              (fun hlt => Or.inr ⟨hlt, rfl, rfl⟩)
          all_goals simp_all
    · cases hstep

/-! ## C1: terminal states -/

/-- C1 counterexample: a job cancelled while its subprocess is being
torn down (terminal status "cancelled") is still mutated afterwards —
a buffered progress line raises Progress from 1 to 50. -/
theorem C1_counterexample :
    run ctx0 (initS req0) trCancelMid = some (sAfter trCancelMid) ∧
    (sAfter trCancelMid).job.status = Status.cancelled ∧
    (sAfter trCancelMid).job.progress = 1 ∧
    step ctx0 (sAfter trCancelMid) (Ev.progress 50)
      = some (stepAfter trCancelMid (Ev.progress 50)) ∧
    (stepAfter trCancelMid (Ev.progress 50)).job.status = Status.cancelled ∧
    (stepAfter trCancelMid (Ev.progress 50)).job.progress = 50 := by
  refine ⟨by decide, by decide, by decide, by decide, by decide, by decide⟩

/-- C1 amended: a completed job is fully frozen; a failed job keeps its
status, result, error, handle and request (only late progress callbacks
can still raise Progress); a cancelled job keeps its result and its
progress can only rise, but its status can still be overwritten to
"failed" by a staging or publish failure of the worker that is still
running it; statuses are otherwise reached only along the documented
paths (completed only from processing, processing only from queued, a
job never returns to queued, failed only from processing or from a
cancelled job's worker, cancelled never from completed or failed). -/
theorem C1_terminal_freeze_amended (c : Ctx) (req : Request) (s s' : S) (e : Ev)
    (h : Reachable c req s) (hstep : step c s e = some s') :
    (s.job.status = Status.completed →
      s'.job.status = Status.completed ∧ s'.job.progress = s.job.progress ∧
      s'.job.result = s.job.result ∧ s'.job.error = s.job.error ∧
      s'.job.cancelFunc = s.job.cancelFunc ∧ s'.job.request = s.job.request) ∧
    (s.job.status = Status.failed →
      s'.job.status = Status.failed ∧ s'.job.result = s.job.result ∧
      s'.job.error = s.job.error ∧ s'.job.cancelFunc = s.job.cancelFunc ∧
      s'.job.request = s.job.request ∧ s.job.progress ≤ s'.job.progress) ∧
    (s.job.status = Status.cancelled →
      (s'.job.status = Status.cancelled ∨ s'.job.status = Status.failed) ∧
      s'.job.result = s.job.result ∧ s.job.progress ≤ s'.job.progress) ∧
    (s'.job.status = Status.completed →
      s.job.status = Status.processing ∨ s.job.status = Status.completed) ∧
    (s'.job.status = Status.processing →
      s.job.status = Status.queued ∨ s.job.status = Status.processing) ∧
    (s'.job.status = Status.queued → s.job.status = Status.queued) ∧
    (s'.job.status = Status.failed →
      s.job.status = Status.processing ∨ s.job.status = Status.cancelled ∨
      s.job.status = Status.failed) ∧
    (s'.job.status = Status.cancelled →
      s.job.status ≠ Status.completed ∧ s.job.status ≠ Status.failed) := by
  have hF := step_facts c s s' e (inv_reachable c req s h) hstep
  exact ⟨hF.1, hF.2.1, hF.2.2.1, hF.2.2.2.1, hF.2.2.2.2.1, hF.2.2.2.2.2.1,
         hF.2.2.2.2.2.2.1, hF.2.2.2.2.2.2.2.1⟩

/-- C1 amended witness: a `CancelJob` call against a completed job
changes nothing. -/
theorem C1_terminal_freeze_amended_witness :
    (stepAfter trComplete Ev.cancel).job.status = Status.completed ∧
    (stepAfter trComplete Ev.cancel).job.progress = (sAfter trComplete).job.progress := by
  have h := C1_terminal_freeze_amended ctx0 req0 (sAfter trComplete)
    (stepAfter trComplete Ev.cancel) Ev.cancel ⟨trComplete, by decide⟩ (by decide)
  exact ⟨(h.1 (by decide)).1, (h.1 (by decide)).2.1⟩

/-! ## C2: no artifact for failed or cancelled jobs -/

/-- C2 counterexample: the subprocess finishes successfully just before
cancellation is observed; the worker publishes the artifact to the
requested final output path and the job nevertheless settles cancelled,
so the artifact is neither discarded nor withheld. -/
theorem C2_counterexample :
    run ctx0 (initS req0) trPublishCancelled = some (sAfter trPublishCancelled) ∧
    (sAfter trPublishCancelled).job.status = Status.cancelled ∧
    (sAfter trPublishCancelled).phase = Phase.pDone ∧
    (sAfter trPublishCancelled).fsFinalOut = true := by
  refine ⟨by decide, by decide, by decide, by decide⟩

/-- C2 amended: a failed or cancelled job has no artifact at its
requested final output path provided no `Upscale` call of that job ever
returned success; when the subprocess did produce a successful result
before cancellation was observed, the worker still publishes it. -/
theorem C2_no_artifact_amended (c : Ctx) (req : Request) (s : S)
    (h : Reachable c req s)
    (_hst : s.job.status = Status.failed ∨ s.job.status = Status.cancelled)
    (hup : s.sawUpSuccess = false) :
    s.fsFinalOut = false := by
  have hI := inv_reachable c req s h
  cases hf : s.fsFinalOut with
  | false => rfl
  | true =>
    have := hI.2.2.2.2.2.2.1 hf
    rw [hup] at this
    cases this

/-- C2 amended witness: a job cancelled after its subprocess was killed
has no artifact at the final output path. -/
theorem C2_no_artifact_amended_witness :
    (sAfter trCancelMid).fsFinalOut = false :=
  C2_no_artifact_amended ctx0 req0 (sAfter trCancelMid)
    ⟨trCancelMid, by decide⟩ (Or.inr (by decide)) (by decide)

/-! ## C3: result and error attachment -/

/-- C3: in every reachable state, a Result is attached exactly when the
status is "completed", an Error is attached exactly when the status is
"failed", and a cancelled job carries no error. -/
theorem C3_result_error_iff (c : Ctx) (req : Request) (s : S) (h : Reachable c req s) :
    (s.job.result.isSome = true ↔ s.job.status = Status.completed) ∧
    (s.job.error.isSome = true ↔ s.job.status = Status.failed) ∧
    (s.job.status = Status.cancelled → s.job.error = none) := by
  have hI := inv_reachable c req s h
  refine ⟨hI.1, hI.2.1, ?_⟩
  intro hc
  cases he : s.job.error with
  | none => rfl
  | some e =>
    have : s.job.status = Status.failed := hI.2.1.mp (by rw [he]; rfl)
    rw [hc] at this
    cases this

/-- C3 witness: the completed sample job carries a result and no error;
the cancelled sample job carries neither. -/
theorem C3_result_error_iff_witness :
    (sAfter trComplete).job.result.isSome = true ∧
    (sAfter trPublishCancelled).job.error = none := by
  constructor
  · exact (C3_result_error_iff ctx0 req0 (sAfter trComplete)
      ⟨trComplete, by decide⟩).1.mpr (by decide)
  · exact (C3_result_error_iff ctx0 req0 (sAfter trPublishCancelled)
      ⟨trPublishCancelled, by decide⟩).2.2 (by decide)

/-! ## C4: progress monotonicity and the value 100 -/

/-- C4 counterexample: the subprocess reports 100 percent and then dies;
the job settles failed with Progress 100, so landing at 100 is not
exclusive to completion. -/
theorem C4_counterexample :
    run ctx0 (initS req0) trFail100 = some (sAfter trFail100) ∧
    (sAfter trFail100).phase = Phase.pDone ∧
    (sAfter trFail100).job.status = Status.failed ∧
    (sAfter trFail100).job.progress = 100 := by
  refine ⟨by decide, by decide, by decide, by decide⟩

/-- C4 amended: progress-callback updates are clamped to non-decreasing;
along any transition the progress can only decrease through the
completion clamp to 100 (possible only when a callback had pushed it
above 100); and a completed job always has Progress exactly 100.  A
failed or cancelled job may however also settle at Progress 100. -/
theorem C4_progress_amended (c : Ctx) (req : Request) (s s' : S) (e : Ev)
    (h : Reachable c req s) (hstep : step c s e = some s') :
    (s.job.progress ≤ s'.job.progress ∨
      (100 < s.job.progress ∧ s'.job.progress = 100 ∧ s'.job.status = Status.completed)) ∧
    (s'.job.status = Status.completed → s'.job.progress = 100) ∧
    (∀ p j, j.progress ≤ (onProgress p j).progress) := by
  have hI := inv_reachable c req s h
  have hF := step_facts c s s' e hI hstep
  have hI' := inv_step c s s' e hI hstep
  exact ⟨hF.2.2.2.2.2.2.2.2, fun hc => (hI'.2.2.1 hc).2.2, fun p j => onProgress_mono p j⟩

/-- C4 amended witness: one progress step on a fresh processing job. -/
theorem C4_progress_amended_witness :
    (sAfter [Ev.wStart]).job.progress ≤ (stepAfter [Ev.wStart] Ev.cancel).job.progress ∨
      (100 < (sAfter [Ev.wStart]).job.progress ∧
       (stepAfter [Ev.wStart] Ev.cancel).job.progress = 100 ∧
       (stepAfter [Ev.wStart] Ev.cancel).job.status = Status.completed) := by
  exact (C4_progress_amended ctx0 req0 (sAfter [Ev.wStart])
    (stepAfter [Ev.wStart] Ev.cancel) Ev.cancel ⟨[Ev.wStart], by decide⟩ (by decide)).1

/-! ## C9: scratch input removal -/

/-- C9 counterexample: when both the rename and the copy of the produced
output fail, the worker returns before the scratch-input removal, so the
job settles failed with the scratch input copy still on disk. -/
theorem C9_counterexample :
    run ctx0 (initS req0) trPublishFail = some (sAfter trPublishFail) ∧
    (sAfter trPublishFail).phase = Phase.pDone ∧
    (sAfter trPublishFail).job.status = Status.failed ∧
    (sAfter trPublishFail).fsTmpIn = true := by
  refine ⟨by decide, by decide, by decide, by decide⟩

/-- C9 amended: when a job settles, its scratch input copy has been
removed — except on the publish-failure path (both rename and copy of
the output failed, `publishFailed`), and except for a partial file left
by a failed input copy (`earlyLeftover`). -/
theorem C9_scratch_removed_amended (c : Ctx) (req : Request) (s : S)
    (h : Reachable c req s) (hd : s.phase = Phase.pDone)
    (hpub : s.publishFailed = false) (hel : s.earlyLeftover = false) :
    s.fsTmpIn = false := by
  have hI := inv_reachable c req s h
  cases hf : s.fsTmpIn with
  | false => rfl
  | true =>
    rcases hI.2.2.2.2.2.2.2.1 hf with h2 | h2 | h2 | h2
    · rw [hd] at h2; cases h2
    · rw [hd] at h2; cases h2
    · rw [hpub] at h2; cases h2
    · rw [hel] at h2; cases h2

/-- C9 amended witness: the completed sample job leaves no scratch
input behind. -/
theorem C9_scratch_removed_amended_witness :
    (sAfter trComplete).fsTmpIn = false :=
  C9_scratch_removed_amended ctx0 req0 (sAfter trComplete)
    ⟨trComplete, by decide⟩ (by decide) (by decide) (by decide)

/-! ## C10: upload path sanitization -/

/-- No separator survives `afterLastSep`. -/
theorem afterLastSep_no_sep (p : List Char) : '/' ∉ afterLastSep p := by
  intro h
  rw [afterLastSep, List.mem_reverse] at h
  have := List.mem_takeWhile_imp h
  simp at this

/-- The base name is never empty. -/
theorem goBase_ne_nil (p : List Char) : goBase p ≠ [] := by
  unfold goBase
  split
  · simp
  · split
    · simp
    · assumption

/-- The base name is either the root `"/"` or free of separators. -/
theorem goBase_root_or_no_sep (p : List Char) :
    goBase p = ['/'] ∨ '/' ∉ goBase p := by
  unfold goBase
  split
  · right
    simp
  · split
    · left
      rfl
    · right
      exact afterLastSep_no_sep (dropTrailingSeps p)

/-- Splitting never yields the empty group list. -/
theorem splitSep_ne_nil (p : List Char) : splitSep p ≠ [] := by
  cases p with
  | nil => simp [splitSep]
  | cons c cs =>
    rw [splitSep]
    split
    · simp
    · cases h : splitSep cs with
      | nil => simp
      | cons g gs => simp

/-- Rejoining the split groups restores the path. -/
theorem joinComps_splitSep (p : List Char) : joinComps (splitSep p) = p := by
  induction p with
  | nil => rfl
  | cons c cs ih =>
    rw [splitSep]
    split
    · rename_i hc
      subst hc
      cases h : splitSep cs with
      | nil => exact absurd h (splitSep_ne_nil cs)
      | cons g gs =>
        rw [h] at ih
        rw [joinComps, List.nil_append, ih]
    · rename_i hc
      cases h : splitSep cs with
      | nil => exact absurd h (splitSep_ne_nil cs)
      | cons g gs =>
        rw [h] at ih
        show joinComps ((c :: g) :: gs) = c :: cs
        cases gs with
        | nil =>
          have hg : g = cs := ih
          rw [joinComps, hg]
        | cons g2 gs2 =>
          exact congrArg (List.cons c) ih

/-- Splitting distributes over a separator in the middle. -/
theorem splitSep_append (a b : List Char) :
    splitSep (a ++ '/' :: b) = splitSep a ++ splitSep b := by
  induction a with
  | nil => rfl
  | cons c cs ih =>
    rw [List.cons_append, splitSep, splitSep]
    by_cases hc : c = '/'
    · rw [if_pos hc, if_pos hc, ih]
      rfl
    · rw [if_neg hc, if_neg hc, ih]
      cases h : splitSep cs with
      | nil => exact absurd h (splitSep_ne_nil cs)
      | cons g gs => rfl

/-- A separator-free string splits into itself. -/
theorem splitSep_no_sep (l : List Char) (h : '/' ∉ l) : splitSep l = [l] := by
  induction l with
  | nil => rfl
  | cons c cs ih =>
    have hc : c ≠ '/' := fun hh => h (hh ▸ List.mem_cons_self c cs)
    have hcs : '/' ∉ cs := fun hh => h (List.mem_cons_of_mem c hh)
    rw [splitSep, if_neg hc, ih hcs]

/-- Component resolution keeps plain components verbatim and drops the
empty ones. -/
theorem resolveComps_plain (rooted : Bool) (l : List (List Char))
    (h : ∀ x ∈ l, x = [] ∨ isPlainComp x = true) :
    ∀ acc, resolveComps rooted acc l = acc.reverse ++ l.filter (fun x => !x.isEmpty) := by
  induction l with
  | nil =>
    intro acc
    simp [resolveComps]
  | cons c cs ih =>
    intro acc
    have hcs : ∀ x ∈ cs, x = [] ∨ isPlainComp x = true :=
      fun x hx => h x (List.mem_cons_of_mem c hx)
    rcases h c (List.mem_cons_self c cs) with hc | hc
    · subst hc
      rw [resolveComps.eq_def]
      simp only [if_pos rfl]
      rw [ih hcs acc]
      simp [List.filter_cons]
    · simp only [isPlainComp, Bool.and_eq_true, bne_iff_ne, ne_eq,
        Bool.not_eq_true'] at hc
      obtain ⟨⟨hemp, hd1⟩, hd2⟩ := hc
      have hne : c ≠ [] := by
        cases c with
        | nil => simp [List.isEmpty] at hemp
        | cons y ys => simp
      rw [resolveComps.eq_def]
      simp only [if_neg hne, if_neg hd1, if_neg hd2]
      rw [ih hcs (c :: acc)]
      have hfc : (!c.isEmpty) = true := by
        cases c with
        | nil => exact absurd rfl hne
        | cons y ys => rfl
      rw [List.filter_cons, hfc]
      simp

/-- Appending one group to a non-empty group list joins with a
separator. -/
theorem joinComps_append_single (l : List (List Char)) (x : List Char) (h : l ≠ []) :
    joinComps (l ++ [x]) = joinComps l ++ '/' :: x := by
  induction l with
  | nil => exact absurd rfl h
  | cons g gs ih =>
    cases gs with
    | nil => rfl
    | cons g2 gs2 =>
      have ih2 := ih (by simp)
      rw [List.cons_append] at ih2
      rw [List.cons_append, List.cons_append, joinComps, ih2, joinComps]
      simp [List.append_assoc]

/-- The `SaveUpload` filename component is non-empty, separator-free,
and not a traversal component. -/
theorem uploadComp_plain (t : Nat) (rest : List Char) (h : '/' ∉ rest) :
    decChars t ++ '_' :: rest ≠ [] ∧ '/' ∉ (decChars t ++ '_' :: rest) ∧
    decChars t ++ '_' :: rest ≠ ['.'] ∧ decChars t ++ '_' :: rest ≠ ['.', '.'] := by
  obtain ⟨d, ds, hd⟩ := List.exists_cons_of_ne_nil (decChars_ne_nil t)
  have hdm : d ∈ decChars t := by rw [hd]; exact List.mem_cons_self d ds
  have hdprop := mem_decChars_ne t d hdm
  refine ⟨by simp, ?_, ?_, ?_⟩
  · intro hmem
    rcases List.mem_append.mp hmem with h2 | h2
    · exact (mem_decChars_ne t '/' h2).1 rfl
    · rcases List.mem_cons.mp h2 with h3 | h3
      · cases h3
      · exact h h3
  · intro heq
    have := congrArg List.length heq
    rw [hd] at this
    simp at this
  · intro heq
    rw [hd] at heq
    have hd2 : d = '.' := by
      have := congrArg (fun l => l.head?) heq
      simpa using this
    exact hdprop.2 hd2

/-- C10: a successful `SaveUpload` writes to a direct child of the
configured upload directory: the returned path is the upload directory
followed by exactly one new component, which is non-empty, contains no
separator, and is not `"."` or `".."` — whatever directory components or
traversal segments the caller-supplied filename contains.  The upload
directory is assumed absolute and clean (its split yields a leading
empty group followed by plain components). -/
theorem C10_upload_path (uploadDir : List Char) (cs : List (List Char))
    (maxFileSizeMB t dataLen : Nat) (filename p : List Char)
    (hsplit : splitSep uploadDir = [] :: cs) (hcs : cs ≠ [])
    (hplain : ∀ x ∈ cs, isPlainComp x = true)
    (hok : SaveUpload uploadDir maxFileSizeMB t filename dataLen = Except.ok p) :
    ∃ name, p = uploadDir ++ '/' :: name ∧ name ≠ [] ∧ '/' ∉ name ∧
      name ≠ ['.'] ∧ name ≠ ['.', '.'] := by
  have hdir : uploadDir = '/' :: joinComps cs := by
    have hj := joinComps_splitSep uploadDir
    rw [hsplit] at hj
    cases cs with
    | nil => exact absurd rfl hcs
    | cons g gs =>
      rw [joinComps] at hj
      simp only [List.nil_append] at hj
      exact hj.symm
  unfold SaveUpload at hok
  split at hok
  · cases hok
  · rw [Except.ok.injEq] at hok
    subst hok
    rcases goBase_root_or_no_sep filename with hb | hb
    · -- all-separator filename: the base is "/" and the trailing
      -- separator is cleaned away, leaving "<digits>_"
      refine ⟨decChars t ++ ['_'], ?_, ?_, ?_, ?_, ?_⟩
      · rw [uploadName, sanitizeFilename, hb]
        have helem : decChars t ++ '_' :: ['/'] = (decChars t ++ ['_']) ++ '/' :: [] := by
          simp
        rw [goJoin]
        rw [if_neg (by rw [hdir]; simp)]
        rw [if_neg (by simp [decChars_ne_nil t])]
        rw [helem]
        have hsp : splitSep (uploadDir ++ '/' :: ((decChars t ++ ['_']) ++ '/' :: [])) =
            ([] :: cs) ++ ([decChars t ++ ['_']] ++ [[]]) := by
          rw [splitSep_append, hsplit, splitSep_append]
          have h1 : splitSep (decChars t ++ ['_']) = [decChars t ++ ['_']] := by
            apply splitSep_no_sep
            intro hmem
            rcases List.mem_append.mp hmem with h2 | h2
            · exact (mem_decChars_ne t '/' h2).1 rfl
            · simp at h2
          rw [h1]
          rfl
        rw [goClean]
        rw [if_neg (by rw [hdir]; simp)]
        rw [show isRooted (uploadDir ++ '/' :: ((decChars t ++ ['_']) ++ '/' :: [])) = true
            from by rw [hdir]; rfl]
        rw [if_pos rfl]
        rw [hsp]
        have hall : ∀ x ∈ ([] :: cs) ++ ([decChars t ++ ['_']] ++ [[]]),
            x = [] ∨ isPlainComp x = true := by
          intro x hx
          rcases List.mem_append.mp hx with h2 | h2
          · rcases List.mem_cons.mp h2 with h3 | h3
            · exact Or.inl h3
            · exact Or.inr (hplain x h3)
          · rcases List.mem_append.mp h2 with h3 | h3
            · rcases List.mem_cons.mp h3 with h4 | h4
              · subst h4
                right
                have hplain2 := uploadComp_plain t [] (by simp)
                simp only [isPlainComp, Bool.and_eq_true, bne_iff_ne, ne_eq]
                refine ⟨⟨?_, ?_⟩, ?_⟩
                · simp [List.isEmpty_eq_true]
                · exact hplain2.2.2.1
                · exact hplain2.2.2.2
              · simp at h4
            · rcases List.mem_cons.mp h3 with h4 | h4
              · exact Or.inl h4
              · simp at h4
        rw [resolveComps_plain true _ hall []]
        have hfilter : (([] :: cs) ++ ([decChars t ++ ['_']] ++ [[]])).filter
            (fun x => !x.isEmpty) = cs ++ [decChars t ++ ['_']] := by
          rw [List.filter_append, List.filter_append]
          have hcs2 : cs.filter (fun x => !x.isEmpty) = cs := by
            apply List.filter_eq_self.mpr
            intro x hx
            have := hplain x hx
            simp only [isPlainComp, Bool.and_eq_true, bne_iff_ne, ne_eq] at this
            cases x with
            | nil => simp [List.isEmpty] at this
            | cons y ys => rfl
          simp only [List.filter_cons, List.filter_nil]
          rw [hcs2]
          have : (!(decChars t ++ ['_']).isEmpty) = true := by
            cases hl : decChars t ++ ['_'] with
            | nil => simp at hl
            | cons y ys => rfl
          rw [this]
          simp
        rw [hfilter]
        rw [List.reverse_nil, List.nil_append]
        rw [joinComps_append_single cs _ hcs]
        rw [hdir]
        simp
      · simp [decChars_ne_nil t]
      · intro hmem
        rcases List.mem_append.mp hmem with h2 | h2
        · exact (mem_decChars_ne t '/' h2).1 rfl
        · simp at h2
      · have := uploadComp_plain t [] (by simp)
        exact this.2.2.1
      · have := uploadComp_plain t [] (by simp)
        exact this.2.2.2
    · -- ordinary filename: the whole component survives
      have hcomp := uploadComp_plain t (goBase filename) hb
      refine ⟨decChars t ++ '_' :: goBase filename, ?_, hcomp.1, hcomp.2.1,
              hcomp.2.2.1, hcomp.2.2.2⟩
      rw [uploadName, sanitizeFilename]
      rw [goJoin]
      rw [if_neg (by rw [hdir]; simp)]
      rw [if_neg (by simp [decChars_ne_nil t])]
      have hsp : splitSep (uploadDir ++ '/' :: (decChars t ++ '_' :: goBase filename)) =
          ([] :: cs) ++ [decChars t ++ '_' :: goBase filename] := by
        rw [splitSep_append, hsplit, splitSep_no_sep _ hcomp.2.1]
      rw [goClean]
      rw [if_neg (by rw [hdir]; simp)]
      rw [show isRooted (uploadDir ++ '/' :: (decChars t ++ '_' :: goBase filename)) = true
          from by rw [hdir]; rfl]
      rw [if_pos rfl]
      rw [hsp]
      have hall : ∀ x ∈ ([] :: cs) ++ [decChars t ++ '_' :: goBase filename],
          x = [] ∨ isPlainComp x = true := by
        intro x hx
        rcases List.mem_append.mp hx with h2 | h2
        · rcases List.mem_cons.mp h2 with h3 | h3
          · exact Or.inl h3
          · exact Or.inr (hplain x h3)
        · rcases List.mem_cons.mp h2 with h3 | h3
          · subst h3
            right
            simp only [isPlainComp, Bool.and_eq_true, bne_iff_ne, ne_eq]
            refine ⟨⟨?_, hcomp.2.2.1⟩, hcomp.2.2.2⟩
            cases hl : decChars t ++ '_' :: goBase filename with
            | nil => exact absurd hl hcomp.1
            | cons y ys => simp [List.isEmpty]
          · simp at h3
      rw [resolveComps_plain true _ hall []]
      have hfilter : (([] :: cs) ++ [decChars t ++ '_' :: goBase filename]).filter
          (fun x => !x.isEmpty) = cs ++ [decChars t ++ '_' :: goBase filename] := by
        rw [List.filter_append]
        have hcs2 : cs.filter (fun x => !x.isEmpty) = cs := by
          apply List.filter_eq_self.mpr
          intro x hx
          have := hplain x hx
          simp only [isPlainComp, Bool.and_eq_true, bne_iff_ne, ne_eq] at this
          cases x with
          | nil => simp [List.isEmpty] at this
          | cons y ys => rfl
        simp only [List.filter_cons, List.filter_nil]
        rw [hcs2]
        have : (!(decChars t ++ '_' :: goBase filename).isEmpty) = true := by
          cases hl : decChars t ++ '_' :: goBase filename with
          | nil => exact absurd hl hcomp.1
          | cons y ys => rfl
        rw [this]
        simp
      rw [hfilter]
      rw [List.reverse_nil, List.nil_append]
      rw [joinComps_append_single cs _ hcs]
      rw [hdir]
      simp

/-- C10 witness: a traversal filename lands as a single component under
the upload directory. -/
theorem C10_upload_path_witness :
    ∃ name, goJoin "/data/uploads".data (uploadName 17 "../../etc/passwd".data)
        = "/data/uploads".data ++ '/' :: name ∧ name ≠ [] ∧ '/' ∉ name ∧
        name ≠ ['.'] ∧ name ≠ ['.', '.'] :=
  C10_upload_path "/data/uploads".data ["data".data, "uploads".data] 50 17 5
    "../../etc/passwd".data
    (goJoin "/data/uploads".data (uploadName 17 "../../etc/passwd".data))
    (by decide) (by decide) (by decide) rfl

end MLCUpscale
